import Mathlib

/-!
Shallow embedding of `alexlayton/lilchain` (`src/lib.rs`).

The crate is an in-memory hash-chained ledger: `Transaction`, `Block` and
`Blockchain` (chain of blocks, pending transactions, `u32` nonce counter).
Identities are SHA-256 hex digests (`utils::hash_str` uses `sha2::Sha256`
and formats the 32-byte digest as lowercase hex).  Machine integers (`u32`
nonce and index) are modelled as `Nat` with explicit reduction modulo
`2^32` at the two places the source performs `u32` arithmetic
(`self.nonce += 1`, `previous.index + 1`); the wall clock is an explicit
parameter (`t : Nat`), and the fallible clock of `utils::current_time`
is modelled by `Option Nat` in the `...E` variants of the operations.
-/

namespace LilChain

/-! ### SHA-256 (the `sha2::Sha256` dependency of `utils::hash_str`)

A direct executable rendering of FIPS 180-4 over byte lists (`List Nat`,
each entry < 256), word values kept < 2^32 throughout. -/

/-- 2^32, the modulus of `u32` arithmetic and of SHA-256 word arithmetic. -/
def M32 : Nat := 4294967296

theorem M32_eq : M32 = 2 ^ 32 := rfl

/-- Rotate a 32-bit word right by `n` positions. -/
def rotr (n x : Nat) : Nat := ((x >>> n) ||| (x <<< (32 - n))) % M32

/-- SHA-256 `Ch` function (`¬x` as xor with the 32-bit mask). -/
def ch (x y z : Nat) : Nat := (x &&& y) ^^^ ((x ^^^ 4294967295) &&& z)

/-- SHA-256 `Maj` function. -/
def maj (x y z : Nat) : Nat := (x &&& y) ^^^ (x &&& z) ^^^ (y &&& z)

/-- SHA-256 big sigma 0. -/
def bsig0 (x : Nat) : Nat := rotr 2 x ^^^ rotr 13 x ^^^ rotr 22 x

/-- SHA-256 big sigma 1. -/
def bsig1 (x : Nat) : Nat := rotr 6 x ^^^ rotr 11 x ^^^ rotr 25 x

/-- SHA-256 small sigma 0. -/
def ssig0 (x : Nat) : Nat := rotr 7 x ^^^ rotr 18 x ^^^ (x >>> 3)

/-- SHA-256 small sigma 1. -/
def ssig1 (x : Nat) : Nat := rotr 17 x ^^^ rotr 19 x ^^^ (x >>> 10)

/-- The 64 SHA-256 round constants of FIPS 180-4 (decimal). -/
def Kconst : List Nat :=
  [1116352408, 1899447441, 3049323471, 3921009573, 961987163,
   1508970993, 2453635748, 2870763221, 3624381080, 310598401,
   607225278, 1426881987, 1925078388, 2162078206, 2614888103,
   3248222580, 3835390401, 4022224774, 264347078, 604807628,
   770255983, 1249150122, 1555081692, 1996064986, 2554220882,
   2821834349, 2952996808, 3210313671, 3336571891, 3584528711,
   113926993, 338241895, 666307205, 773529912, 1294757372,
   1396182291, 1695183700, 1986661051, 2177026350, 2456956037,
   2730485921, 2820302411, 3259730800, 3345764771, 3516065817,
   3600352804, 4094571909, 275423344, 430227734, 506948616,
   659060556, 883997877, 958139571, 1322822218, 1537002063,
   1747873779, 1955562222, 2024104815, 2227730452, 2361852424,
   2428436474, 2756734187, 3204031479, 3329325298]

/-- The SHA-256 initial hash value of FIPS 180-4 (decimal). -/
def H0 : List Nat :=
  [1779033703, 3144134277, 1013904242, 2773480762,
   1359893119, 2600822924, 528734635, 1541459225]

/-- Big-endian assembly of 4-byte groups into 32-bit words. -/
def toWords : List Nat → List Nat
  | a :: b :: c :: d :: rest => (((a * 256 + b) * 256 + c) * 256 + d) :: toWords rest
  | _ => []

/-- One step of the message-schedule extension.  The schedule is kept
reversed (newest word first), so `W[t-2]` is entry 1, `W[t-7]` entry 6,
`W[t-15]` entry 14 and `W[t-16]` entry 15. -/
def scheduleStep (w : List Nat) : Nat :=
  (ssig1 (w.getD 1 0) + w.getD 6 0 + ssig0 (w.getD 14 0) + w.getD 15 0) % M32

/-- Extend the (reversed) message schedule by `n` words. -/
def extendW : Nat → List Nat → List Nat
  | 0, w => w
  | n + 1, w => extendW n (scheduleStep w :: w)

/-- One SHA-256 round on the state `[a, b, c, d, e, f, g, h]`. -/
def compressStep (st : List Nat) (w k : Nat) : List Nat :=
  match st with
  | [a, b, c, d, e, f, g, h] =>
    let t1 := (h + bsig1 e + ch e f g + k + w) % M32
    let t2 := (bsig0 a + maj a b c) % M32
    [(t1 + t2) % M32, a, b, c, (d + t1) % M32, e, f, g]
  | other => other

/-- Compress one 64-byte block into the running hash value. -/
def compress (h : List Nat) (block : List Nat) : List Nat :=
  let w := (extendW 48 (toWords block).reverse).reverse
  let final := (w.zip Kconst).foldl (fun st p => compressStep st p.1 p.2) h
  (h.zip final).map (fun p => (p.1 + p.2) % M32)

/-- The 8-byte big-endian encoding of the bit length. -/
def lenBytes (n : Nat) : List Nat :=
  [(n / 72057594037927936) % 256, (n / 281474976710656) % 256,
   (n / 1099511627776) % 256, (n / 4294967296) % 256,
   (n / 16777216) % 256, (n / 65536) % 256, (n / 256) % 256, n % 256]

/-- SHA-256 padding: append `0x80`, zeros up to 56 mod 64, then the
64-bit big-endian bit length. -/
def pad (msg : List Nat) : List Nat :=
  msg ++ 128 :: (List.replicate ((119 - msg.length % 64) % 64) 0 ++ lenBytes (8 * msg.length))

/-- Fold `compress` over successive 64-byte blocks (fuel-driven; the fuel
is set to the padded length, which bounds the number of blocks). -/
def processBlocks : Nat → List Nat → List Nat → List Nat
  | _, [], h => h
  | 0, _ :: _, h => h
  | fuel + 1, b :: bs, h => processBlocks fuel ((b :: bs).drop 64) (compress h ((b :: bs).take 64))

/-- Split the final words back into big-endian bytes. -/
def wordsToBytes (ws : List Nat) : List Nat :=
  (ws.map (fun w => [(w / 16777216) % 256, (w / 65536) % 256, (w / 256) % 256, w % 256])).flatten

/-- SHA-256 of a byte list: 32 output bytes. -/
def sha256 (msg : List Nat) : List Nat :=
  wordsToBytes (processBlocks (pad msg).length (pad msg) H0)

/-! ### Hex rendering and UTF-8 (`format!("{:x}", result)` and `.as_bytes()`) -/

/-- Lowercase hex digit. -/
def hexChar (n : Nat) : Char := if n < 10 then Char.ofNat (48 + n) else Char.ofNat (87 + n)

/-- Two lowercase hex digits of one byte. -/
def byteToHex (b : Nat) : List Char := [hexChar (b / 16), hexChar (b % 16)]

/-- Lowercase hex string of a byte list (the `format!("{:x}", result)` of
`utils::hash_str`, which zero-pads every byte to two digits). -/
def bytesToHex (bs : List Nat) : String := String.mk (bs.map byteToHex).flatten

/-- UTF-8 encoding of one scalar value (Rust `str` is UTF-8). -/
def utf8Char (c : Char) : List Nat :=
  let n := c.toNat
  if n < 128 then [n]
  else if n < 2048 then [192 + n / 64, 128 + n % 64]
  else if n < 65536 then [224 + n / 4096, 128 + (n / 64) % 64, 128 + n % 64]
  else [240 + n / 262144, 128 + (n / 4096) % 64, 128 + (n / 64) % 64, 128 + n % 64]

/-- The UTF-8 bytes of a string (Rust `String::as_bytes`). -/
def strBytes (s : String) : List Nat := (s.data.map utf8Char).flatten

/-- `utils::hash_str`: SHA-256 of the bytes, rendered as lowercase hex. -/
def hash_str (bytes : List Nat) : String := bytesToHex (sha256 bytes)

/-! ### The data model (`Transaction`, `Block`, `Blockchain` of `src/lib.rs`) -/

/-- `Transaction` of `src/lib.rs`: `id`, `payload`, `nonce : u32`,
`timestamp : u64`.  The machine integers are carried as `Nat`. -/
structure Transaction where
  id : String
  payload : String
  nonce : Nat
  timestamp : Nat
deriving DecidableEq, Repr

/-- `Transaction::new`: `id` is `hash_str` of the bytes of
`format!("{}{}", payload, nonce)` (payload followed by the decimal
rendering of the nonce, no separator); the timestamp is the clock value,
here the explicit parameter `t`. -/
def Transaction.new (payload : String) (nonce : Nat) (t : Nat) : Transaction :=
  { id := hash_str (strBytes (payload ++ Nat.repr nonce))
    payload := payload
    nonce := nonce
    timestamp := t }

/-- `Block` of `src/lib.rs`: `id`, `previous`, `index : u32`,
`timestamp : u64`, `transactions`. -/
structure Block where
  id : String
  previous : String
  index : Nat
  timestamp : Nat
  transactions : List Transaction
deriving DecidableEq, Repr

/-- `Block::genesis`: `id` is the hash of the byte literal `b"genesis"`,
`previous` is empty, `index` is `0`, no transactions. -/
def Block.genesis (t : Nat) : Block :=
  { id := hash_str (strBytes "genesis")
    previous := ""
    index := 0
    timestamp := t
    transactions := [] }

/-- `Block::new`: the id string is the fold of the transactions' ids
(in order, starting from the empty string) with the previous block's id
appended; `previous` is the previous block's id and `index` is the `u32`
sum `previous.index + 1`, hence the reduction modulo `2^32`. -/
def Block.new (previous : Block) (transactions : List Transaction) (t : Nat) : Block :=
  let id_str := (transactions.map Transaction.id).foldl (fun cur next => cur ++ next) "" ++ previous.id
  { id := hash_str (strBytes id_str)
    previous := previous.id
    index := (previous.index + 1) % M32
    timestamp := t
    transactions := transactions }

/-- `Blockchain` of `src/lib.rs`: the chain, the pending transactions and
the `u32` nonce counter. -/
structure Blockchain where
  chain : List Block
  pending : List Transaction
  nonce : Nat
deriving DecidableEq, Repr

/-- `Blockchain::new`: one genesis block, nothing pending, nonce `0`. -/
def Blockchain.new (t : Nat) : Blockchain :=
  { chain := [Block.genesis t], pending := [], nonce := 0 }

/-- `Blockchain::current_block`: `&self.chain[self.chain.len() - 1]`.
On an empty chain the Rust indexing panics; the embedding returns `none`
there (`List.get?` of `length - 1`). -/
def Blockchain.current_block (bc : Blockchain) : Option Block :=
  bc.chain.get? (bc.chain.length - 1)

/-- `Blockchain::submit_tx`: build the transaction from the current nonce,
push it onto `pending`, then `self.nonce += 1` in `u32` arithmetic. -/
def Blockchain.submit_tx (bc : Blockchain) (payload : String) (t : Nat) : Blockchain :=
  { bc with
    pending := bc.pending ++ [Transaction.new payload bc.nonce t]
    nonce := (bc.nonce + 1) % M32 }

/-- `Blockchain::new_block`: clone `pending`, build the block on the
current tip, push it, reset `pending`.  The panic of `current_block` on an
empty chain propagates as `none`. -/
def Blockchain.new_block (bc : Blockchain) (t : Nat) : Option Blockchain :=
  match bc.current_block with
  | none => none
  | some tip =>
    some { chain := bc.chain ++ [Block.new tip bc.pending t]
           pending := []
           nonce := bc.nonce }

/-! ### Fallible-clock variants

`utils::current_time` panics (`expect`) when `SystemTime::duration_since`
fails.  The clock is modelled as `Option Nat`: `none` is the failing
clock.  Each operation mirrors the source's order: the new entity is
built (which is where the clock is read) before any stored sequence is
touched, so a clock failure yields `none` and no successor state. -/

/-- `Transaction::new` under a fallible clock. -/
def Transaction.newE (payload : String) (nonce : Nat) (clock : Option Nat) : Option Transaction :=
  match clock with
  | none => none
  | some t => some (Transaction.new payload nonce t)

/-- `Block::genesis` under a fallible clock. -/
def Block.genesisE (clock : Option Nat) : Option Block :=
  match clock with
  | none => none
  | some t => some (Block.genesis t)

/-- `Block::new` under a fallible clock. -/
def Block.newE (previous : Block) (transactions : List Transaction) (clock : Option Nat) :
    Option Block :=
  match clock with
  | none => none
  | some t => some (Block.new previous transactions t)

/-- `Blockchain::new` under a fallible clock. -/
def Blockchain.newE (clock : Option Nat) : Option Blockchain :=
  match Block.genesisE clock with
  | none => none
  | some g => some { chain := [g], pending := [], nonce := 0 }

/-- `Blockchain::submit_tx` under a fallible clock: the transaction is
fully constructed first; only then are `pending` and `nonce` updated. -/
def Blockchain.submit_txE (bc : Blockchain) (payload : String) (clock : Option Nat) :
    Option Blockchain :=
  match Transaction.newE payload bc.nonce clock with
  | none => none
  | some tx =>
    some { bc with pending := bc.pending ++ [tx], nonce := (bc.nonce + 1) % M32 }

/-- `Blockchain::new_block` under a fallible clock: the block is fully
constructed first; only then are `chain` and `pending` updated. -/
def Blockchain.new_blockE (bc : Blockchain) (clock : Option Nat) : Option Blockchain :=
  match bc.current_block with
  | none => none
  | some tip =>
    match Block.newE tip bc.pending clock with
    | none => none
    | some b => some { chain := bc.chain ++ [b], pending := [], nonce := bc.nonce }

/-! ### Derived notions used by the claims -/

/-- Iterated `submit_tx` (one call per payload, shared clock value). -/
def submitAll (bc : Blockchain) (ps : List String) (t : Nat) : Blockchain :=
  ps.foldl (fun b p => b.submit_tx p t) bc

/-- Iterated `new_block` from a fresh ledger (clock fixed at `t`); the
`getD` branch is never taken, since the chain of a reachable state is
never empty. -/
def sealN (t : Nat) : Nat → Blockchain
  | 0 => Blockchain.new t
  | n + 1 => ((sealN t n).new_block t).getD (sealN t n)

theorem sealN_zero (t : Nat) : sealN t 0 = Blockchain.new t := rfl

theorem sealN_succ (t n : Nat) :
    sealN t (n + 1) = ((sealN t n).new_block t).getD (sealN t n) := rfl

attribute [irreducible] sealN

/-- The states reachable from a fresh ledger through the public API
(`Blockchain::new`, `submit_tx`, `new_block`), with arbitrary clock
values. -/
inductive Reachable : Blockchain → Prop
  | fresh (t : Nat) : Reachable (Blockchain.new t)
  | submitStep {s : Blockchain} (p : String) (t : Nat) :
      Reachable s → Reachable (s.submit_tx p t)
  | sealStep {s s' : Blockchain} (t : Nat) :
      Reachable s → s.new_block t = some s' → Reachable s'

end LilChain

namespace LilChain

/-! ### Supporting lemmas -/

theorem current_block_eq_getLast? (bc : Blockchain) : bc.current_block = bc.chain.getLast? :=
  (List.getLast?_eq_get? bc.chain).symm

theorem submit_txE_some (bc : Blockchain) (p : String) (t : Nat) :
    bc.submit_txE p (some t) = some (bc.submit_tx p t) := rfl

theorem newE_some (t : Nat) : Blockchain.newE (some t) = some (Blockchain.new t) := rfl

theorem new_blockE_some (bc : Blockchain) (t : Nat) :
    bc.new_blockE (some t) = bc.new_block t := by
  unfold Blockchain.new_blockE Blockchain.new_block
  rcases bc.current_block with _ | tip <;> rfl

theorem new_block_of_current {bc : Blockchain} {tip : Block} (t : Nat)
    (h : bc.current_block = some tip) :
    bc.new_block t
      = some { chain := bc.chain ++ [Block.new tip bc.pending t], pending := [],
               nonce := bc.nonce } := by
  unfold Blockchain.new_block
  rw [h]

theorem new_block_inv {bc s' : Blockchain} {t : Nat} (h : bc.new_block t = some s') :
    ∃ tip, bc.current_block = some tip ∧
      s' = { chain := bc.chain ++ [Block.new tip bc.pending t], pending := [],
             nonce := bc.nonce } := by
  rcases hcb : bc.current_block with _ | tip
  · simp only [Blockchain.new_block, hcb] at h
    exact Option.noConfusion h
  · simp only [Blockchain.new_block, hcb, Option.some.injEq] at h
    exact ⟨tip, rfl, h.symm⟩

theorem Reachable.chain_ne_nil {s : Blockchain} (h : Reachable s) : s.chain ≠ [] := by
  induction h with
  | fresh t => simp [Blockchain.new]
  | submitStep p t _ ih => exact ih
  | sealStep t _ heq ih =>
    obtain ⟨tip, -, rfl⟩ := new_block_inv heq
    simp

/-! ### Claims C1, C2, C3, C6, C7, C9, C10 -/

/-- Claim C1: `Transaction::new` computes the id as the SHA-256 hex digest
of the payload concatenated with the decimal rendering of the nonce (no
separator); the id does not depend on the clock value; and the concrete
transaction with payload "hello" and nonce 0 has the fixed reference
digest. -/
theorem claimC1 :
    (∀ (P : String) (N t : Nat),
      (Transaction.new P N t).id = hash_str (strBytes (P ++ Nat.repr N))) ∧
    (∀ (P : String) (N t t' : Nat),
      (Transaction.new P N t).id = (Transaction.new P N t').id) ∧
    (Transaction.new "hello" 0 0).id
      = "5a936ee19a0cf3c70d8cb0006111b7a52f45ec01703e0af8cdc8c6d81ac5850c" :=
  ⟨fun _ _ _ => rfl, fun _ _ _ _ => rfl, by decide⟩

/-- Claim C2: a fresh ledger has exactly the one genesis block, whose
index is 0, whose previous is the empty string, whose transaction list is
empty and whose id is the hash of the bytes of the literal "genesis"
(hence independent of the timestamp). -/
theorem claimC2 (t : Nat) :
    (Blockchain.new t).chain = [Block.genesis t] ∧
    (Blockchain.new t).chain.length = 1 ∧
    (Block.genesis t).index = 0 ∧
    (Block.genesis t).previous = "" ∧
    (Block.genesis t).transactions = [] ∧
    (Block.genesis t).id = hash_str [103, 101, 110, 101, 115, 105, 115] ∧
    (∀ t' : Nat, (Block.genesis t).id = (Block.genesis t').id) := by
  refine ⟨rfl, rfl, rfl, rfl, rfl, ?_, fun t' => rfl⟩
  exact congrArg hash_str (by decide)

/-- Claim C3 (amended): `Block::new` hashes the concatenation of the
transactions' ids followed by the previous block's id, and sets
`previous` to the previous block's id; the index is the `u32` sum, i.e.
`(B.index + 1) % 2^32`, not the unbounded `B.index + 1`. -/
theorem claimC3 (B : Block) (TS : List Transaction) (t : Nat) :
    (Block.new B TS t).id = hash_str (strBytes (String.join (TS.map Transaction.id) ++ B.id)) ∧
    (Block.new B TS t).previous = B.id ∧
    (Block.new B TS t).index = (B.index + 1) % 2 ^ 32 := by
  refine ⟨rfl, rfl, ?_⟩
  rw [← M32_eq]
  exact rfl

/-- Claim C3, counterexample: on a previous block of index `2^32 - 1`
(the largest `u32`), the new block's index is 0, not `B.index + 1`. -/
theorem claimC3_cex :
    (Block.new { id := "prev", previous := "", index := 2 ^ 32 - 1, timestamp := 0,
                 transactions := [] } [] 0).index ≠ (2 ^ 32 - 1) + 1 ∧
    (Block.new { id := "prev", previous := "", index := 2 ^ 32 - 1, timestamp := 0,
                 transactions := [] } [] 0).index = 0 :=
  ⟨by decide, by decide⟩

/-- Claim C6: on any ledger state whose chain is non-empty (an invariant
of every state the public API can produce), `new_block` succeeds,
appends exactly one block whose transaction list is the pending batch
just before the call, and leaves the pending batch empty. -/
theorem claimC6 (bc : Blockchain) (t : Nat) (h : bc.chain ≠ []) :
    ∃ bc', bc.new_block t = some bc' ∧
      bc'.chain.length = bc.chain.length + 1 ∧
      (∃ b, bc'.chain = bc.chain ++ [b] ∧ b.transactions = bc.pending) ∧
      bc'.pending = [] := by
  have htip : bc.current_block = some (bc.chain.getLast h) := by
    rw [current_block_eq_getLast?]
    exact List.getLast?_eq_getLast bc.chain h
  refine ⟨_, new_block_of_current t htip, by simp, ⟨_, rfl, rfl⟩, rfl⟩

/-- Claim C6, witness at the fresh ledger. -/
theorem claimC6_witness :
    ∃ bc', (Blockchain.new 0).new_block 0 = some bc' ∧
      bc'.chain.length = (Blockchain.new 0).chain.length + 1 ∧
      (∃ b, bc'.chain = (Blockchain.new 0).chain ++ [b] ∧
        b.transactions = (Blockchain.new 0).pending) ∧
      bc'.pending = [] :=
  claimC6 (Blockchain.new 0) 0 (List.cons_ne_nil _ _)

/-- Claim C7: every reachable ledger state has a non-empty chain, so
`current_block` (which indexes the last element of the chain) is defined
and returns the chain's last element. -/
theorem claimC7 (s : Blockchain) (hs : Reachable s) :
    ∃ h : s.chain ≠ [], s.current_block = some (s.chain.getLast h) := by
  refine ⟨hs.chain_ne_nil, ?_⟩
  rw [current_block_eq_getLast?]
  exact List.getLast?_eq_getLast _ hs.chain_ne_nil

/-- Claim C7, witness at the fresh ledger. -/
theorem claimC7_witness :
    ∃ h : (Blockchain.new 0).chain ≠ [],
      (Blockchain.new 0).current_block = some ((Blockchain.new 0).chain.getLast h) :=
  claimC7 (Blockchain.new 0) (Reachable.fresh 0)

/-- Claim C9: when the clock fails (the `none` clock), ledger creation,
submit and seal all propagate the failure and produce no successor state:
the caller is left with the ledger value it passed in, whose chain,
pending batch and nonce are untouched (the new entity is fully built
before any stored sequence is updated). -/
theorem claimC9 (bc : Blockchain) (p : String) :
    Blockchain.newE none = none ∧
    bc.submit_txE p none = none ∧
    bc.new_blockE none = none := by
  refine ⟨rfl, rfl, ?_⟩
  unfold Blockchain.new_blockE
  rcases bc.current_block with _ | tip <;> rfl

/-- Claim C10: the identity encoding of transactions is not injective:
payloads "a1" with nonce 2 and "a" with nonce 12 concatenate to the same
string "a12", so the two distinct transactions share an id. -/
theorem claimC10 :
    (Transaction.new "a1" 2 0).id = (Transaction.new "a" 12 0).id ∧
    (Transaction.new "a1" 2 0).payload ≠ (Transaction.new "a" 12 0).payload ∧
    (Transaction.new "a1" 2 0).nonce ≠ (Transaction.new "a" 12 0).nonce := by
  refine ⟨?_, by decide, by decide⟩
  show hash_str (strBytes ("a1" ++ Nat.repr 2)) = hash_str (strBytes ("a" ++ Nat.repr 12))
  exact congrArg hash_str (by decide)

end LilChain

namespace LilChain

/-! ### Counting lemmas for iterated `submit_tx` -/

theorem submitAll_cons (bc : Blockchain) (p : String) (ps : List String) (t : Nat) :
    submitAll bc (p :: ps) t = submitAll (bc.submit_tx p t) ps t := rfl

theorem submit_tx_nonce (bc : Blockchain) (p : String) (t : Nat) :
    (bc.submit_tx p t).nonce = (bc.nonce + 1) % M32 := rfl

theorem M32_pos : 0 < M32 := by norm_num [M32]

/-- Running `submit_tx` once per payload: the nonce counter advances by
the number of payloads modulo `2^32`, the pending batch grows at the back
with nonces `bc.nonce + i (mod 2^32)` in submission order, and the chain
is untouched. -/
theorem submitAll_spec (t : Nat) :
    ∀ (ps : List String) (bc : Blockchain), bc.nonce < M32 →
      (submitAll bc ps t).nonce = (bc.nonce + ps.length) % M32 ∧
      (submitAll bc ps t).pending.map Transaction.nonce
        = bc.pending.map Transaction.nonce
            ++ (List.range ps.length).map (fun i => (bc.nonce + i) % M32) ∧
      (submitAll bc ps t).pending.map Transaction.payload
        = bc.pending.map Transaction.payload ++ ps ∧
      (submitAll bc ps t).chain = bc.chain := by
  intro ps
  induction ps with
  | nil =>
    intro bc h
    exact ⟨by simp [submitAll, Nat.mod_eq_of_lt h], by simp [submitAll],
      by simp [submitAll], rfl⟩
  | cons p ps ih =>
    intro bc h
    rw [submitAll_cons]
    obtain ⟨h1, h2, h3, h4⟩ := ih (bc.submit_tx p t) (Nat.mod_lt _ M32_pos)
    have hnonce : (bc.submit_tx p t).nonce = (bc.nonce + 1) % M32 := rfl
    have hpend : (bc.submit_tx p t).pending = bc.pending ++ [Transaction.new p bc.nonce t] := rfl
    refine ⟨?_, ?_, ?_, h4⟩
    · rw [h1, hnonce, Nat.mod_add_mod]
      congr 1
      simp
      omega
    · have hfun : (List.range ps.length).map (fun i => ((bc.submit_tx p t).nonce + i) % M32)
          = (List.range ps.length).map (fun i => (bc.nonce + (i + 1)) % M32) := by
        apply List.map_congr_left
        intro i _
        rw [hnonce, Nat.mod_add_mod]
        congr 1
        omega
      have hrange : (List.range (ps.length + 1)).map (fun i => (bc.nonce + i) % M32)
          = (bc.nonce % M32) :: (List.range ps.length).map (fun i => (bc.nonce + (i + 1)) % M32) := by
        rw [List.range_succ_eq_map, List.map_cons, List.map_map]
        rfl
      rw [h2, hpend, hfun]
      simp only [List.length_cons]
      rw [hrange, Nat.mod_eq_of_lt h]
      simp [Transaction.new, List.append_assoc]
    · rw [h3, hpend]
      simp [Transaction.new]

/-- The pending nonces after `K` submissions on a fresh ledger are
`0 % 2^32, ..., (K-1) % 2^32`, and the counter is `K % 2^32`. -/
theorem submitAll_fresh (t0 t : Nat) (ps : List String) :
    (submitAll (Blockchain.new t0) ps t).nonce = ps.length % M32 ∧
    (submitAll (Blockchain.new t0) ps t).pending.map Transaction.nonce
      = (List.range ps.length).map (fun i => i % M32) ∧
    (submitAll (Blockchain.new t0) ps t).pending.map Transaction.payload = ps := by
  obtain ⟨h1, h2, h3, -⟩ := submitAll_spec t ps (Blockchain.new t0) M32_pos
  refine ⟨by simpa [Blockchain.new] using h1, ?_, by simpa [Blockchain.new] using h3⟩
  simpa [Blockchain.new] using h2

/-- Below `2^32` the wrap never fires: `(range K).map (· % 2^32)` is just
`range K`. -/
theorem range_map_mod (K : Nat) (hK : K ≤ M32) :
    (List.range K).map (fun i => i % M32) = List.range K := by
  rw [show (List.range K).map (fun i => i % M32) = (List.range K).map id from ?_, List.map_id]
  apply List.map_congr_left
  intro i hi
  have : i < M32 := lt_of_lt_of_le (List.mem_range.mp hi) hK
  simp [Nat.mod_eq_of_lt this]

end LilChain

namespace LilChain

/-! ### Claims C5 and C8 -/

/-- Claim C5 (amended): after `K` submissions on a fresh ledger the
counter is `K % 2^32` (not `K`: the `u32` counter wraps), the pending
nonces are `0 % 2^32, ..., (K-1) % 2^32` in submission order (exactly
`0, ..., K-1` whenever `K ≤ 2^32`), and the payloads are the submitted
ones in order. -/
theorem claimC5 (t0 t : Nat) (ps : List String) :
    (submitAll (Blockchain.new t0) ps t).nonce = ps.length % 2 ^ 32 ∧
    (submitAll (Blockchain.new t0) ps t).pending.map Transaction.nonce
      = (List.range ps.length).map (fun i => i % 2 ^ 32) ∧
    (submitAll (Blockchain.new t0) ps t).pending.map Transaction.payload = ps ∧
    (ps.length ≤ 2 ^ 32 →
      (submitAll (Blockchain.new t0) ps t).pending.map Transaction.nonce
        = List.range ps.length) := by
  obtain ⟨h1, h2, h3⟩ := submitAll_fresh t0 t ps
  rw [← M32_eq]
  exact ⟨h1, h2, h3, fun hK => by rw [h2, range_map_mod ps.length hK]⟩

/-- Claim C5, witness: one submission on a fresh ledger, pending nonce
list `[0]`. -/
theorem claimC5_witness :
    (submitAll (Blockchain.new 0) ["a"] 0).pending.map Transaction.nonce = List.range 1 :=
  (claimC5 0 0 ["a"]).2.2.2 (by decide)

/-- Claim C5, counterexample: after `2^32` submissions on a fresh ledger
the counter has wrapped to `0`, not the claimed `K = 2^32`. -/
theorem claimC5_cex :
    (submitAll (Blockchain.new 0) (List.replicate (2 ^ 32) "a") 0).nonce = 0 ∧
    (List.replicate (2 ^ 32) "a").length = 2 ^ 32 ∧
    (0 : Nat) ≠ 2 ^ 32 := by
  refine ⟨?_, List.length_replicate _ _, by decide⟩
  rw [(submitAll_fresh 0 0 (List.replicate (2 ^ 32) "a")).1, List.length_replicate]
  decide

/-- Claim C8 (amended): the counter starts at 0 and `submit_tx` (a total
operation: it succeeds on every payload in every state) increments it by
exactly 1 in `u32` arithmetic, i.e. modulo `2^32`, wrapping from
`2^32 - 1` back to `0`; the assigned nonces are unique and strictly
increasing as long as at most `2^32` submissions are made. -/
theorem claimC8 (t t' t0 : Nat) (s : Blockchain) (p : String) (ps : List String) :
    (Blockchain.new t).nonce = 0 ∧
    (s.submit_tx p t').nonce = (s.nonce + 1) % 2 ^ 32 ∧
    (ps.length ≤ 2 ^ 32 →
      ((submitAll (Blockchain.new t0) ps t').pending.map Transaction.nonce).Pairwise (· < ·)) := by
  refine ⟨rfl, by rw [← M32_eq]; exact rfl, fun hK => ?_⟩
  have h2 := (submitAll_fresh t0 t' ps).2.1
  rw [h2, range_map_mod ps.length (by rw [M32_eq]; exact hK)]
  exact List.pairwise_lt_range ps.length

/-- Claim C8, witness: two submissions on a fresh ledger, pending nonces
strictly increasing. -/
theorem claimC8_witness :
    ((submitAll (Blockchain.new 0) ["a", "b"] 0).pending.map Transaction.nonce).Pairwise
      (· < ·) :=
  (claimC8 0 0 0 (Blockchain.new 0) "a" ["a", "b"]).2.2 (by decide)

/-- Claim C8, counterexample: in the reachable state after `2^32 - 1`
submissions the counter is `2^32 - 1`; one more submission resets it to
`0`, which is not an increment by 1 (the counter is decremented back to
its start value). -/
theorem claimC8_cex :
    (submitAll (Blockchain.new 0) (List.replicate (2 ^ 32 - 1) "a") 0).nonce = 2 ^ 32 - 1 ∧
    ((submitAll (Blockchain.new 0) (List.replicate (2 ^ 32 - 1) "a") 0).submit_tx "a" 0).nonce
      = 0 ∧
    (0 : Nat) ≠ (2 ^ 32 - 1) + 1 := by
  have h := (submitAll_fresh 0 0 (List.replicate (2 ^ 32 - 1) "a")).1
  rw [List.length_replicate] at h
  have hn : (submitAll (Blockchain.new 0) (List.replicate (2 ^ 32 - 1) "a") 0).nonce
      = 2 ^ 32 - 1 := by
    rw [h]
    decide
  refine ⟨hn, ?_, by decide⟩
  rw [submit_tx_nonce, hn]
  decide

end LilChain

namespace LilChain

/-! ### The chain-linkage invariant and iterated sealing (claim C4) -/

/-- Chain linkage, in `u32` arithmetic, over every reachable state:
adjacent blocks satisfy `previous = id` of the predecessor and
`index = (predecessor.index + 1) % 2^32`. -/
theorem Reachable.chain_linked {s : Blockchain} (h : Reachable s) :
    s.chain.Chain' (fun a b => b.previous = a.id ∧ b.index = (a.index + 1) % M32) := by
  induction h with
  | fresh t => exact List.chain'_singleton _
  | submitStep p t _ ih => exact ih
  | sealStep t _ heq ih =>
    obtain ⟨tip, htip, rfl⟩ := new_block_inv heq
    rw [List.chain'_append]
    refine ⟨ih, List.chain'_singleton _, ?_⟩
    intro x hx y hy
    rw [← current_block_eq_getLast?, htip] at hx
    simp only [Option.mem_def, List.head?_cons, Option.some.injEq] at hx hy
    subst hx
    subst hy
    exact ⟨rfl, rfl⟩

theorem sealN_succ_eq {t n : Nat} {tip : Block} (htip : (sealN t n).current_block = some tip) :
    sealN t (n + 1)
      = { chain := (sealN t n).chain ++ [Block.new tip (sealN t n).pending t],
          pending := [], nonce := (sealN t n).nonce } := by
  rw [sealN_succ, new_block_of_current t htip]
  rfl

/-- After `n` seals from a fresh ledger nothing is pending and the tip's
index is `n % 2^32`. -/
theorem sealN_spec (t n : Nat) :
    (sealN t n).pending = [] ∧
    ∃ tip, (sealN t n).current_block = some tip ∧ tip.index = n % M32 := by
  induction n with
  | zero =>
    rw [sealN_zero]
    exact ⟨rfl, Block.genesis t, rfl, (Nat.zero_mod _).symm⟩
  | succ n ih =>
    obtain ⟨hpend, tip, htip, hidx⟩ := ih
    have hBidx : (Block.new tip (sealN t n).pending t).index = (n + 1) % M32 := by
      show (tip.index + 1) % M32 = (n + 1) % M32
      rw [hidx, Nat.mod_add_mod]
    have hseal := sealN_succ_eq htip
    refine ⟨?_, Block.new tip (sealN t n).pending t, ?_, hBidx⟩
    · rw [hseal]
    · rw [hseal, current_block_eq_getLast?]
      exact List.getLast?_concat _

theorem sealN_reachable (t n : Nat) : Reachable (sealN t n) := by
  induction n with
  | zero =>
    rw [sealN_zero]
    exact Reachable.fresh t
  | succ n ih =>
    obtain ⟨-, tip, htip, -⟩ := sealN_spec t n
    rw [sealN_succ_eq htip]
    exact Reachable.sealStep t ih (new_block_of_current t htip)

/-- Claim C4 (amended): in every reachable state, adjacent blocks `B[i]`,
`B[i+1]` satisfy `B[i+1].previous = B[i].id` and
`B[i+1].index = (B[i].index + 1) % 2^32` — the `u32` increment, which
differs from the unbounded `B[i].index + 1` once the index wraps. -/
theorem claimC4 (s : Blockchain) (hs : Reachable s) :
    s.chain.Chain' (fun a b => b.previous = a.id ∧ b.index = (a.index + 1) % 2 ^ 32) := by
  have h := hs.chain_linked
  simpa [M32_eq] using h

/-- Claim C4, witness at the fresh ledger. -/
theorem claimC4_witness :
    (Blockchain.new 0).chain.Chain'
      (fun a b => b.previous = a.id ∧ b.index = (a.index + 1) % 2 ^ 32) :=
  claimC4 (Blockchain.new 0) (Reachable.fresh 0)

/-- Claim C4, counterexample: the state reached by `2^32` seals from a
fresh ledger is reachable, yet its last two blocks have indices
`2^32 - 1` and `0`, so adjacent indices do not always increase by exactly
1. -/
theorem chain'_pair_suffix {α : Type} {R : α → α → Prop} {x y : α} :
    ∀ l : List α, (l ++ [x, y]).Chain' R → R x y := by
  intro l
  induction l with
  | nil => exact fun h => (List.chain'_cons.mp h).1
  | cons a l ih => exact fun h => ih h.tail

theorem claimC4_cex :
    Reachable (sealN 0 (2 ^ 32)) ∧
    ¬ (sealN 0 (2 ^ 32)).chain.Chain'
        (fun a b => b.previous = a.id ∧ b.index = a.index + 1) := by
  refine ⟨sealN_reachable 0 (2 ^ 32), fun hC => ?_⟩
  obtain ⟨hp2, tip2, htip2, hidx2⟩ := sealN_spec 0 (2 ^ 32 - 2)
  obtain ⟨hp1, tip1, htip1, hidx1⟩ := sealN_spec 0 (2 ^ 32 - 1)
  have e2 : 2 ^ 32 - 2 + 1 = 2 ^ 32 - 1 := by decide
  have e1 : 2 ^ 32 - 1 + 1 = 2 ^ 32 := by decide
  have hd1 := sealN_succ_eq htip2
  rw [e2, hp2] at hd1
  have hd0 := sealN_succ_eq htip1
  rw [e1, hp1] at hd0
  have hchain : (sealN 0 (2 ^ 32)).chain
      = (sealN 0 (2 ^ 32 - 2)).chain ++ [Block.new tip2 [] 0, Block.new tip1 [] 0] := by
    rw [hd0, hd1]
    show ((sealN 0 (2 ^ 32 - 2)).chain ++ [Block.new tip2 [] 0]) ++ [Block.new tip1 [] 0] = _
    rw [List.append_assoc]
    rfl
  rw [hchain] at hC
  have hr := chain'_pair_suffix _ hC
  have hB1 : (Block.new tip1 [] 0).index = 0 := by
    show (tip1.index + 1) % M32 = 0
    rw [hidx1]
    decide
  have hB2 : (Block.new tip2 [] 0).index = 2 ^ 32 - 1 := by
    show (tip2.index + 1) % M32 = 2 ^ 32 - 1
    rw [hidx2]
    decide
  have hr2 := hr.2
  rw [hB1, hB2] at hr2
  exact absurd hr2 (by decide)

end LilChain
